import Mathlib

/-!
Verification development for the schedule service: a shallow embedding of
the S3 link-refresh task (`app/tasks/s3_link_updater.py`) and the task
scheduler (`app/scheduler/scheduler.py`), together with theorems checking
the natural-language specification against this embedding.

Python strings are modelled as `List Char`; Python's `str.split`,
`str.join`, containment (`in`) and indexing (with `IndexError` as an
`Option` miss) are modelled by executable functions below.
-/

namespace SchedApp

/-- Python strings are modelled as lists of characters. -/
abbrev PyStr := List Char

/-- Shorthand turning a Lean string literal into the `PyStr` model. -/
def pys (s : String) : PyStr := s.toList

/-- Bool test that `pre` is a leading segment of `s` (model of `str.startswith`). -/
def pyStartsWith : PyStr → PyStr → Bool
  | [], _ => true
  | _ :: _, [] => false
  | a :: as, b :: bs => a == b && pyStartsWith as bs

/-- Bool test that `needle` occurs somewhere in `s` (model of Python's `in` on strings). -/
def hasInfix (needle : PyStr) : PyStr → Bool
  | [] => needle.isEmpty
  | c :: rest => pyStartsWith needle (c :: rest) || hasInfix needle rest

/-- Index of the first occurrence of `needle` in `s`, if any. -/
def findOcc (needle : PyStr) : PyStr → Option Nat
  | [] => none
  | c :: rest =>
      if pyStartsWith needle (c :: rest) then some 0
      else (findOcc needle rest).map (· + 1)

/-- The characters of `s` strictly after the first occurrence of `needle`
(`s` itself when there is no occurrence). -/
def afterFirstOcc (needle s : PyStr) : PyStr :=
  match findOcc needle s with
  | some i => s.drop (i + needle.length)
  | none => s

/-- The characters of `s` strictly before the first occurrence of `needle`
(`s` itself when there is no occurrence). -/
def upToFirstOcc (needle s : PyStr) : PyStr :=
  match findOcc needle s with
  | some i => s.take i
  | none => s

/-- Fuel-indexed worker for `pySplit`; the fuel is consumed one character at
a time so `s.length` fuel always suffices. -/
def pySplitF (sep : PyStr) : Nat → PyStr → List PyStr
  | _, [] => [[]]
  | 0, s => [s]
  | fuel + 1, c :: rest =>
      if pyStartsWith sep (c :: rest) then
        [] :: pySplitF sep fuel (List.drop sep.length (c :: rest))
      else
        match pySplitF sep fuel rest with
        | [] => [[c]]
        | p :: ps => (c :: p) :: ps

/-- Model of Python's `str.split(sep)` for a non-empty separator: splits at
every non-overlapping occurrence of `sep`, scanning left to right. -/
def pySplit (sep s : PyStr) : List PyStr := pySplitF sep s.length s

/-- Model of Python's `sep.join(parts)`. -/
def pyJoin (sep : PyStr) (parts : List PyStr) : PyStr := List.intercalate sep parts

-- Sanity examples for the Python string model.
example : pys "ab" = ['a', 'b'] := rfl
example : pySplit (pys "/") (pys "a/b/c") = [pys "a", pys "b", pys "c"] := by decide
example : pySplit (pys "s3.amazonaws.com/") (pys "b.s3.amazonaws.com/k") =
    [pys "b.", pys "k"] := by decide
example : hasInfix (pys "s3.amazonaws.com") (pys "x.s3.amazonaws.com") = true := by decide

/-! ## The link-refresh task (`app/tasks/s3_link_updater.py`) -/

/-- The hosted-bucket domain marker checked by `_extract_path_from_url`
(`'s3.amazonaws.com' in url`). -/
def marker : PyStr := pys "s3.amazonaws.com"

/-- The separator actually used by the split in `_extract_path_from_url`
(`url.split('s3.amazonaws.com/')`). -/
def markerSlash : PyStr := pys "s3.amazonaws.com/"

/-- Embedding of `S3LinkUpdaterTask._extract_path_from_url`.

```
if 's3.amazonaws.com' in url:
    path = url.split('s3.amazonaws.com/')[1]     -- IndexError is caught below
else:
    parts = url.split('/')
    if len(parts) >= 4:
        path = '/'.join(parts[3:]).split('?')[0]
    else:
        return None
return path
-- except Exception: return None
```
The `[1]` indexing is modelled with `Option`: a missing index is Python's
`IndexError`, which the surrounding `except` turns into `None`. -/
def extract_path_from_url (url : PyStr) : Option PyStr :=
  if hasInfix marker url then
    (pySplit markerSlash url).get? 1
  else
    let parts := pySplit (pys "/") url
    if parts.length ≥ 4 then
      some ((pySplit (pys "?") (pyJoin (pys "/") (parts.drop 3))).headD [])
    else
      none

/-- The `ExpiresIn` value used for every presigned URL: `60*60*24*7` seconds. -/
def EXPIRES : Nat := 60 * 60 * 24 * 7

/-- Presigned URLs are modelled as a deterministic rendering of the signed
key together with a freshness nonce (each `generate_presigned_url` call in
the real system produces a fresh signature). -/
def presign_url (key : PyStr) (expiresIn n : Nat) : PyStr :=
  pys "https://sgn/" ++ key ++ pys "?sig=" ++ List.replicate n 'x' ++
    (if expiresIn = EXPIRES then pys "&d7" else pys "&dx")

/-- Observable calls made by one run against the collaborators, in order. -/
inductive Ev
  /-- `generate_presigned_url('get_object', Key=key, ExpiresIn=expiresIn)` succeeded. -/
  | presign (key : PyStr) (expiresIn : Nat)
  /-- `delete_object(Bucket=…, Key=key)` was issued. -/
  | del (key : PyStr)
  /-- `upload_fileobj(…, key)` succeeded. -/
  | upload (key : PyStr)
  /-- the per-record loop finished the record with this id. -/
  | record (id : Nat)
  /-- `session.commit()` was issued. -/
  | commit
deriving DecidableEq

/-- Result of `http_session.get(url)`: a status with a body, or a network
error raised mid-transfer. -/
inductive HttpResult
  | resp (status : Nat) (body : PyStr)
  | netErr

/-- Python exceptions that the embedded functions can raise. -/
inductive PyExc
  | valueError | httpError | netError | uploadError | presignError | dbError
deriving DecidableEq

/-- The mutable world one task run interacts with: the object store (set of
keys), a freshness counter for signatures and generated file names, the
local temp-file directory, the HTTP collaborator, failure switches for the
store's upload/presign operations, and the trace of observable calls. -/
structure World where
  store : List PyStr
  nonce : Nat
  temps : List Nat
  tempCtr : Nat
  http : PyStr → HttpResult
  uploadFails : Bool
  presignFails : Bool
  trace : List Ev

/-- Insert a key into the store (S3 upload overwrites, so the store is a set). -/
def setInsert (k : PyStr) (s : List PyStr) : List PyStr :=
  if k ∈ s then s else k :: s

/-- Remove a key from the store. -/
def setRemove (k : PyStr) (s : List PyStr) : List PyStr :=
  s.filter (fun x => x != k)

/-- Embedding of `S3LinkUpdaterTask._delete_s3_object`:

```
try:
    await s3.delete_object(Bucket=self.bucket_name, Key=path.split("/")[1])
    return True
except Exception:
    return False
```
Note the key passed to `delete_object` is `path.split("/")[1]`, not `path`;
`path.split("/")[1]` raises `IndexError` when the path has no `'/'`, which
the `except` turns into `False`. `delete_object` itself succeeds whether or
not the key is present. -/
def delete_s3_object (w : World) (path : PyStr) : Bool × World :=
  match (pySplit (pys "/") path).get? 1 with
  | some k =>
      (true, { w with store := setRemove k w.store, trace := w.trace ++ [Ev.del k] })
  | none => (false, w)

/-- Model of `os.path.basename`: the part after the last `'/'`. -/
def baseName (p : PyStr) : PyStr := (pySplit (pys "/") p).getLast?.getD []

/-- Model of the extension component of `os.path.splitext`: the suffix from
the last dot, provided some character before that dot (within the name) is
not itself a dot; otherwise empty. -/
def splitextExt (name : PyStr) : PyStr :=
  let parts := pySplit (pys ".") name
  match parts with
  | [] => []
  | [_] => []
  | _ =>
      if parts.dropLast.all (fun p => p.isEmpty) then []
      else '.' :: (parts.getLast?.getD [])

/-- Model of `uuid.uuid4()` as a name fresh for the current nonce. -/
def uuidName (n : Nat) : PyStr := pys "uuid-" ++ List.replicate n 'x'

/-- Embedding of `S3LinkUpdaterTask._reupload_file`: make a temp file,
`try:` download the url (non-200 and mid-stream errors raise), build
`f"{uuid4()}{ext}"`, upload it, presign it for `EXPIRES` seconds,
`finally:` remove the temp file if it exists. Errors propagate to the
caller after the `finally` cleanup. -/
def reupload_file (w : World) (url : PyStr) : Except PyExc PyStr × World :=
  let t := w.tempCtr
  let w0 : World := { w with temps := if t ∈ w.temps then w.temps else t :: w.temps,
                             tempCtr := t + 1 }
  let body : Except PyExc PyStr × World :=
    match w0.http url with
    | HttpResult.netErr => (Except.error PyExc.netError, w0)
    | HttpResult.resp status _ =>
        if status ≠ 200 then (Except.error PyExc.httpError, w0)
        else
          let fname := baseName ((pySplit (pys "?") url).headD [])
          let ext := splitextExt fname
          let key := uuidName w0.nonce ++ ext
          if w0.uploadFails then (Except.error PyExc.uploadError, w0)
          else
            let wU : World := { w0 with store := setInsert key w0.store,
                                        nonce := w0.nonce + 1,
                                        trace := w0.trace ++ [Ev.upload key] }
            if wU.presignFails then (Except.error PyExc.presignError, wU)
            else
              (Except.ok (presign_url key EXPIRES wU.nonce),
               { wU with nonce := wU.nonce + 1,
                         trace := wU.trace ++ [Ev.presign key EXPIRES] })
  (body.1, { body.2 with temps := body.2.temps.filter (fun x => x != t) })

/-- Embedding of `S3LinkUpdaterTask._refresh_s3_link`: extract the path
(`raise ValueError` when it is `None` or empty by Python truthiness), then
`try:` `head_object` + presign for `EXPIRES` seconds; any failure of that
inner block (missing object, probe error, presign error) falls back to
`_reupload_file`. The outer handler logs and re-raises, leaving errors to
propagate. -/
def refresh_s3_link (w : World) (url : PyStr) : Except PyExc PyStr × World :=
  match extract_path_from_url url with
  | none => (Except.error PyExc.valueError, w)
  | some path =>
      if path = [] then (Except.error PyExc.valueError, w)
      else if path ∈ w.store then
        if w.presignFails then reupload_file w url
        else
          (Except.ok (presign_url path EXPIRES w.nonce),
           { w with nonce := w.nonce + 1, trace := w.trace ++ [Ev.presign path EXPIRES] })
      else reupload_file w url

/-- A template record (`lawly_db` `Template`): an id and two optional URL
fields. -/
structure Template where
  id : Nat
  download_url : Option PyStr
  image_url : Option PyStr

/-- Embedding of one field block of `_update_template_urls` (the
`download_url` and `image_url` blocks are textually identical). Given a
truthy field value it records `old_path`, refreshes the link, and on a
changed value assigns the field and deletes the old object; any exception
from `_refresh_s3_link` is caught here, leaving the field unchanged.
Returns the field value afterwards, the `updated` flag contribution, and
the world. -/
def update_field (w : World) (url : PyStr) : PyStr × Bool × World :=
  let oldPath := extract_path_from_url url
  match refresh_s3_link w url with
  | (Except.error _, w') => (url, false, w')
  | (Except.ok newUrl, w') =>
      if newUrl = url then (url, false, w')
      else
        let w2 :=
          match oldPath with
          | some p => if p = [] then w' else (delete_s3_object w' p).2
          | none => w'
        (newUrl, true, w2)

/-- Embedding of `S3LinkUpdaterTask._update_template_urls`: process the
`download_url` field then the `image_url` field (skipping falsy values,
i.e. `None` or the empty string), returning the mutated record and whether
any field changed. -/
def update_template_urls (w : World) (t : Template) : Template × Bool × World :=
  let step : Option PyStr → World → Option PyStr × Bool × World := fun f wIn =>
    match f with
    | none => (f, false, wIn)
    | some u =>
        if u = [] then (f, false, wIn)
        else
          let r := update_field wIn u
          (some r.1, r.2.1, r.2.2)
  let d := step t.download_url w
  let i := step t.image_url d.2.2
  ({ t with download_url := d.1, image_url := i.1 }, d.2.1 || i.2.1, i.2.2)

/-- The query of `execute`: all templates where `download_url` or
`image_url` is non-null. -/
def query_templates (db : List Template) : List Template :=
  db.filter (fun t => t.download_url.isSome || t.image_url.isSome)

/-- The per-record loop of `execute`: each record is processed inside its
own `try/except` (the embedded record processing raises nothing, so the
handler is vacuous), the updated count is accumulated, and a `record`
marker is traced when the record's iteration finishes. -/
def process_all (w : World) : List Template → List Template × Nat × World
  | [] => ([], 0, w)
  | t :: ts =>
      let r := update_template_urls w t
      let w2 : World := { r.2.2 with trace := r.2.2.trace ++ [Ev.record t.id] }
      let rest := process_all w2 ts
      (r.1 :: rest.1, (if r.2.1 then 1 else 0) + rest.2.1, rest.2.2)

/-- Embedding of `S3LinkUpdaterTask.execute`: open the unit-of-work
(`openFails` models `create_session` raising), query the candidate
records, process every record, then commit exactly once; the whole body
sits in a `try/except` that logs any exception and returns normally, in
which case nothing is committed. The result carries the committed records,
the updated count, and the final world. -/
def execute_task (w : World) (db : List Template) (openFails : Bool) :
    Except PyExc (List Template × Nat × World) :=
  let inner : Except PyExc (List Template × Nat × World) :=
    if openFails then Except.error PyExc.dbError
    else
      let r := process_all w (query_templates db)
      Except.ok (r.1, r.2.1, { r.2.2 with trace := r.2.2.trace ++ [Ev.commit] })
  match inner with
  | Except.ok r => Except.ok r
  | Except.error _ => Except.ok (db, 0, w)

/-! ## The scheduler (`app/scheduler/scheduler.py`) -/

/-- A task as the scheduler sees it: its `job_id` and its interval in
seconds (`int(task.interval)`). -/
structure STask where
  jobId : String
  interval : Nat
deriving DecidableEq

/-- Embedding of the cron-expression computation in the `else` branch of
`TaskScheduler.add_task` (`interval_seconds >= 60`):

```
minutes = interval_seconds // 60
if minutes < 60:
    cron_expr = f"*/{minutes} * * * *" if minutes > 1 else "* * * * *"
else:
    hours = minutes // 60
    cron_expr = f"0 */{hours} * * *" if hours > 1 else "0 * * * *"
```
-/
def cron_expr_of_interval (interval : Nat) : String :=
  let minutes := interval / 60
  if minutes < 60 then
    if minutes > 1 then "*/" ++ toString minutes ++ " * * * *" else "* * * * *"
  else
    let hours := minutes / 60
    if hours > 1 then "0 */" ++ toString hours ++ " * * *" else "0 * * * *"

/-- The dispatch handle stored in `self.crons`: either the sub-minute
special job created by `_create_seconds_job`, or a standard cron job with
its expression. -/
inductive CronJob
  | subMinuteJob
  | cronJob (expr : String)
deriving DecidableEq

/-- The dispatch handle `add_task` builds for a task. -/
def mk_cron_job (t : STask) : CronJob :=
  if t.interval < 60 then CronJob.subMinuteJob
  else CronJob.cronJob (cron_expr_of_interval t.interval)

/-- The coarse dispatch cadences expressible by the computed expressions,
with their firing semantics. -/
inductive CoarseSched
  /-- fires whenever the minute of the hour is a multiple of `n`
  (`n = 1` is the every-minute form `"* * * * *"`). -/
  | everyNMinutes (n : Nat)
  /-- fires at minute 0 of every hour that is a multiple of `n`
  (`n = 1` is the hourly form `"0 * * * *"`). -/
  | everyNHoursAtZero (n : Nat)
deriving DecidableEq

/-- The cron string denoting each coarse cadence. -/
def CoarseSched.render : CoarseSched → String
  | CoarseSched.everyNMinutes n =>
      if n > 1 then "*/" ++ toString n ++ " * * * *" else "* * * * *"
  | CoarseSched.everyNHoursAtZero n =>
      if n > 1 then "0 */" ++ toString n ++ " * * *" else "0 * * * *"

/-- Whether a coarse cadence fires at a given hour and minute of the day. -/
def CoarseSched.fires : CoarseSched → Nat → Nat → Bool
  | CoarseSched.everyNMinutes n, _, minute => minute % n == 0
  | CoarseSched.everyNHoursAtZero n, hour, minute => minute == 0 && hour % n == 0

/-- The scheduler's state: the task registry `self.tasks` and the dispatch
handle map `self.crons`, both insertion-ordered dicts keyed by `job_id`. -/
structure Scheduler where
  tasks : List (String × STask)
  crons : List (String × CronJob)
deriving DecidableEq

/-- The key list of a Python dict modelled as an association list. -/
def keysOf {α : Type} (l : List (String × α)) : List String := l.map Prod.fst

/-- A freshly constructed `TaskScheduler`. -/
def Scheduler.init : Scheduler := { tasks := [], crons := [] }

/-- Embedding of `TaskScheduler.add_task`: refuse (no mutation, `False`)
when the `job_id` is already registered, otherwise store the dispatch
handle and the task and return `True`. -/
def add_task (s : Scheduler) (t : STask) : Scheduler × Bool :=
  if t.jobId ∈ keysOf s.tasks then (s, false)
  else
    ({ tasks := s.tasks ++ [(t.jobId, t)],
       crons := s.crons ++ [(t.jobId, mk_cron_job t)] }, true)

/-- Embedding of `TaskScheduler.remove_task`: `False` when the id is not in
`self.tasks`; otherwise stop and delete the cron handle when present, and
delete the task. Deleting a dict key is modelled by filtering the key out
(keys are unique). -/
def remove_task (s : Scheduler) (id : String) : Scheduler × Bool :=
  if id ∈ keysOf s.tasks then
    ({ tasks := s.tasks.filter (fun p => p.1 != id),
       crons :=
         if id ∈ keysOf s.crons then s.crons.filter (fun p => p.1 != id)
         else s.crons }, true)
  else (s, false)

/-- Embedding of `TaskScheduler.shutdown`: stop every cron job and set
`self.crons = {}`; `self.tasks` is not touched. -/
def shutdown_sched (s : Scheduler) : Scheduler := { s with crons := [] }

/-- One registry operation, for stating invariants over operation
sequences. -/
inductive SchedOp
  | add (t : STask)
  | remove (id : String)

/-- Apply one operation to a scheduler state. -/
def apply_op (s : Scheduler) : SchedOp → Scheduler
  | SchedOp.add t => (add_task s t).1
  | SchedOp.remove id => (remove_task s id).1

/-- Run a sequence of operations from the freshly constructed scheduler. -/
def run_ops (ops : List SchedOp) : Scheduler := ops.foldl apply_op Scheduler.init

/-! ## The sub-minute dispatch machinery (`_create_seconds_job`)

For `interval < 60` the code registers `aiocron.crontab("* * * * *",
func=wrapped_task)`. Every minute-boundary tick of that cron therefore
invokes `wrapped_task`, and each invocation runs
`asyncio.create_task(seconds_runner())`, spawning one more independent
`while True: execute; sleep(interval)` loop. `TaskScheduler.shutdown` calls
`cron.stop()`, which only stops future cron ticks; the already-spawned
runner loops are never cancelled. The state below records whether the cron
is started and how many runner loops have been spawned. -/
structure SubMinState where
  cronStarted : Bool
  runners : Nat
deriving DecidableEq

/-- One minute-boundary tick of the underlying cron primitive: while the
cron is started it fires `wrapped_task`, which spawns one more
`seconds_runner` loop. -/
def coarse_tick (s : SubMinState) : SubMinState :=
  if s.cronStarted then { s with runners := s.runners + 1 } else s

/-- `shutdown` as it affects the sub-minute machinery: `cron.stop()` only;
spawned runner loops are left running. -/
def shutdown_sub (s : SubMinState) : SubMinState := { s with cronStarted := false }

/-- One iteration of a spawned `seconds_runner` loop: it executes the task
(exceptions caught inside the loop) and sleeps `task.interval` seconds;
the loop guard is `while True`, so the runner count never decreases. -/
def runner_iteration (s : SubMinState) (executions : Nat) : SubMinState × Nat :=
  (s, executions + 1)

/-! ## Concrete fixtures used to evaluate the model on specific inputs -/

/-- An HTTP collaborator that always fails (never reached in the scenarios
that use it). -/
def httpNone : PyStr → HttpResult := fun _ => HttpResult.netErr

/-- A world whose store holds the single key `"bucket/a/b"`. -/
def w0 : World :=
  { store := [pys "bucket/a/b"], nonce := 0, temps := [], tempCtr := 0,
    http := httpNone, uploadFails := false, presignFails := false, trace := [] }

/-- A sample task with a 90-second interval. -/
def tA : STask := { jobId := "task_a", interval := 90 }

/-- A sample task with a 30-second interval. -/
def tB : STask := { jobId := "task_b", interval := 30 }

/-- A scheduler holding `tA` only. -/
def s0 : Scheduler := (add_task Scheduler.init tA).1

/-! ## Lemmas about the Python string model -/

lemma pyStartsWith_length : ∀ {n s : PyStr}, pyStartsWith n s = true → n.length ≤ s.length := by
  intro n
  induction n with
  | nil => intro s _; simp
  | cons a as ih =>
    intro s h
    cases s with
    | nil => simp [pyStartsWith] at h
    | cons b bs =>
      simp only [pyStartsWith, Bool.and_eq_true] at h
      simpa [Nat.succ_le_succ_iff] using ih h.2

lemma pySplitF_fuel (sep : PyStr) (hsep : sep ≠ []) :
    ∀ (f g : Nat) (s : PyStr), s.length ≤ f → s.length ≤ g →
      pySplitF sep f s = pySplitF sep g s := by
  intro f
  induction f with
  | zero =>
    intro g s hf _
    have hs : s = [] := List.eq_nil_of_length_eq_zero (Nat.le_zero.mp hf)
    subst hs
    cases g <;> rfl
  | succ f ih =>
    intro g s hf hg
    cases s with
    | nil => cases g <;> rfl
    | cons c rest =>
      cases g with
      | zero => simp at hg
      | succ g' =>
        have hsl : 1 ≤ sep.length := List.length_pos.mpr hsep
        simp only [pySplitF]
        by_cases hp : pyStartsWith sep (c :: rest) = true
        · rw [if_pos hp, if_pos hp]
          have hlen : (List.drop sep.length (c :: rest)).length ≤ f := by
            simp only [List.length_drop, List.length_cons]
            simp only [List.length_cons] at hf
            omega
          have hlen' : (List.drop sep.length (c :: rest)).length ≤ g' := by
            simp only [List.length_drop, List.length_cons]
            simp only [List.length_cons] at hg
            omega
          rw [ih _ _ hlen hlen']
        · rw [if_neg hp, if_neg hp]
          have h1 : rest.length ≤ f := by simp at hf; omega
          have h2 : rest.length ≤ g' := by simp at hg; omega
          rw [ih _ _ h1 h2]

lemma pySplit_nil (sep : PyStr) : pySplit sep [] = [[]] := rfl

lemma pySplit_cons_pos {sep : PyStr} (hsep : sep ≠ []) {c : Char} {rest : PyStr}
    (hp : pyStartsWith sep (c :: rest) = true) :
    pySplit sep (c :: rest) = [] :: pySplit sep (List.drop sep.length (c :: rest)) := by
  have hsl : 1 ≤ sep.length := List.length_pos.mpr hsep
  show pySplitF sep (c :: rest).length (c :: rest) = _
  simp only [List.length_cons, pySplitF, if_pos hp]
  congr 1
  apply pySplitF_fuel sep hsep
  · simp only [List.length_drop, List.length_cons]; omega
  · exact le_rfl

lemma pySplit_cons_neg {sep : PyStr} {c : Char} {rest : PyStr}
    (hp : pyStartsWith sep (c :: rest) = false) :
    pySplit sep (c :: rest) =
      match pySplit sep rest with
      | [] => [[c]]
      | p :: ps => (c :: p) :: ps := by
  show pySplitF sep (c :: rest).length (c :: rest) = _
  simp only [List.length_cons, pySplitF, hp, Bool.false_eq_true, if_false]
  rfl

lemma findOcc_cons_pos {sep : PyStr} {c : Char} {rest : PyStr}
    (hp : pyStartsWith sep (c :: rest) = true) :
    findOcc sep (c :: rest) = some 0 := by
  simp [findOcc, hp]

lemma findOcc_cons_neg {sep : PyStr} {c : Char} {rest : PyStr}
    (hp : pyStartsWith sep (c :: rest) = false) :
    findOcc sep (c :: rest) = (findOcc sep rest).map (· + 1) := by
  simp [findOcc, hp]

lemma pySplitF_ne_nil (sep : PyStr) : ∀ (f : Nat) (s : PyStr), pySplitF sep f s ≠ [] := by
  intro f
  induction f with
  | zero => intro s; cases s <;> simp [pySplitF]
  | succ f ih =>
    intro s
    cases s with
    | nil => simp [pySplitF]
    | cons c rest =>
      simp only [pySplitF]
      split
      · simp
      · split <;> simp

lemma pySplit_ne_nil (sep s : PyStr) : pySplit sep s ≠ [] := pySplitF_ne_nil sep _ s

lemma hasInfix_nil {sep : PyStr} (hsep : sep ≠ []) : hasInfix sep [] = false := by
  cases sep with
  | nil => exact absurd rfl hsep
  | cons a as => rfl

lemma findOcc_isSome (sep : PyStr) (hsep : sep ≠ []) :
    ∀ s : PyStr, (findOcc sep s).isSome = hasInfix sep s := by
  intro s
  induction s with
  | nil => simp [findOcc, hasInfix_nil hsep]
  | cons c rest ih =>
    simp only [findOcc, hasInfix]
    by_cases hp : pyStartsWith sep (c :: rest) = true
    · simp [hp]
    · simp only [Bool.not_eq_true] at hp
      simp [hp, Option.isSome_map, ih]

lemma pySplit_no_occ {sep : PyStr} (_hsep : sep ≠ []) :
    ∀ {s : PyStr}, hasInfix sep s = false → pySplit sep s = [s] := by
  intro s
  induction s with
  | nil => intro _; exact pySplit_nil sep
  | cons c rest ih =>
    intro h
    simp only [hasInfix, Bool.or_eq_false_iff] at h
    rw [pySplit_cons_neg h.1, ih h.2]

lemma pySplit_headD_aux {sep : PyStr} (hsep : sep ≠ []) :
    ∀ (n : Nat) (s : PyStr), s.length ≤ n →
      (pySplit sep s).headD [] = upToFirstOcc sep s := by
  intro n
  induction n with
  | zero =>
    intro s hs
    have : s = [] := List.eq_nil_of_length_eq_zero (Nat.le_zero.mp hs)
    subst this
    simp [pySplit_nil, upToFirstOcc, findOcc]
  | succ n ih =>
    intro s hs
    cases s with
    | nil => simp [pySplit_nil, upToFirstOcc, findOcc]
    | cons c rest =>
      have hsl : 1 ≤ sep.length := List.length_pos.mpr hsep
      by_cases hp : pyStartsWith sep (c :: rest) = true
      · rw [pySplit_cons_pos hsep hp]
        simp [upToFirstOcc, findOcc, hp]
      · simp only [Bool.not_eq_true] at hp
        rw [pySplit_cons_neg hp]
        cases hps : pySplit sep rest with
        | nil => exact absurd hps (pySplit_ne_nil sep rest)
        | cons p ps =>
          have hrest : rest.length ≤ n := by simp at hs; omega
          have hih := ih rest hrest
          rw [hps] at hih
          simp only [List.headD] at hih
          show c :: p = upToFirstOcc sep (c :: rest)
          cases hfo : findOcc sep rest with
          | none =>
            have h1 : upToFirstOcc sep rest = rest := by simp [upToFirstOcc, hfo]
            have h2 : upToFirstOcc sep (c :: rest) = c :: rest := by
              simp [upToFirstOcc, findOcc_cons_neg hp, hfo]
            rw [h2, hih, h1]
          | some i =>
            have h1 : upToFirstOcc sep rest = rest.take i := by simp [upToFirstOcc, hfo]
            have h2 : upToFirstOcc sep (c :: rest) = c :: rest.take i := by
              simp [upToFirstOcc, findOcc_cons_neg hp, hfo, List.take_succ_cons]
            rw [h2, hih, h1]

lemma pySplit_headD {sep : PyStr} (hsep : sep ≠ []) (s : PyStr) :
    (pySplit sep s).headD [] = upToFirstOcc sep s :=
  pySplit_headD_aux hsep s.length s le_rfl

lemma headD_eq_head? {α : Type} (l : List α) (h : l ≠ []) (d : α) :
    l.head? = some (l.headD d) := by
  cases l with
  | nil => exact absurd rfl h
  | cons a as => rfl

lemma pySplit_get1_aux {sep : PyStr} (hsep : sep ≠ []) :
    ∀ (n : Nat) (s : PyStr), s.length ≤ n →
      (pySplit sep s).get? 1 =
        if hasInfix sep s = true then
          some (upToFirstOcc sep (afterFirstOcc sep s))
        else none := by
  intro n
  induction n with
  | zero =>
    intro s hs
    have : s = [] := List.eq_nil_of_length_eq_zero (Nat.le_zero.mp hs)
    subst this
    simp [pySplit_nil, hasInfix_nil hsep]
  | succ n ih =>
    intro s hs
    cases s with
    | nil => simp [pySplit_nil, hasInfix_nil hsep]
    | cons c rest =>
      have hsl : 1 ≤ sep.length := List.length_pos.mpr hsep
      by_cases hp : pyStartsWith sep (c :: rest) = true
      · rw [pySplit_cons_pos hsep hp]
        have hne := pySplit_ne_nil sep (List.drop sep.length (c :: rest))
        have hhead := pySplit_headD hsep (List.drop sep.length (c :: rest))
        have hinf : hasInfix sep (c :: rest) = true := by
          simp [hasInfix, hp]
        have hafter : afterFirstOcc sep (c :: rest) = List.drop sep.length (c :: rest) := by
          simp [afterFirstOcc, findOcc_cons_pos hp]
        rw [hinf, if_pos rfl, hafter]
        show (pySplit sep (List.drop sep.length (c :: rest))).get? 0 = _
        rw [List.get?_zero, headD_eq_head? _ hne [], hhead]
      · simp only [Bool.not_eq_true] at hp
        rw [pySplit_cons_neg hp]
        cases hps : pySplit sep rest with
        | nil => exact absurd hps (pySplit_ne_nil sep rest)
        | cons p ps =>
          have hrest : rest.length ≤ n := by simp at hs; omega
          have hih := ih rest hrest
          rw [hps] at hih
          have hinf : hasInfix sep (c :: rest) = hasInfix sep rest := by
            simp [hasInfix, hp]
          have hlhs : (((c :: p) :: ps) : List PyStr).get? 1 = ((p :: ps) : List PyStr).get? 1 := rfl
          rw [hlhs, hinf]
          cases hfo : findOcc sep rest with
          | none =>
            have : hasInfix sep rest = false := by
              rw [← findOcc_isSome sep hsep, hfo]; rfl
            simp only [this] at hih ⊢
            simpa using hih
          | some i =>
            have hinfr : hasInfix sep rest = true := by
              rw [← findOcc_isSome sep hsep, hfo]; rfl
            have hafter : afterFirstOcc sep (c :: rest) = afterFirstOcc sep rest := by
              have h1 : afterFirstOcc sep rest = rest.drop (i + sep.length) := by
                simp [afterFirstOcc, hfo]
              have h2 : afterFirstOcc sep (c :: rest) =
                  (c :: rest).drop (i + 1 + sep.length) := by
                simp [afterFirstOcc, findOcc_cons_neg hp, hfo]
              rw [h1, h2, show i + 1 + sep.length = (i + sep.length) + 1 by omega,
                List.drop_succ_cons]
            rw [hafter, hinfr]
            simp only [hinfr] at hih
            simpa using hih

lemma pySplit_get1 {sep : PyStr} (hsep : sep ≠ []) (s : PyStr) :
    (pySplit sep s).get? 1 =
      if hasInfix sep s = true then
        some (upToFirstOcc sep (afterFirstOcc sep s))
      else none :=
  pySplit_get1_aux hsep s.length s le_rfl

lemma pySplit_singleton (c : Char) : ∀ s : PyStr, pySplit [c] s = List.splitOn c s := by
  intro s
  induction s with
  | nil => rfl
  | cons a as ih =>
    by_cases h : c = a
    · subst h
      have hp : pyStartsWith [c] (c :: as) = true := by simp [pyStartsWith]
      rw [pySplit_cons_pos (by simp) hp]
      have hdrop : List.drop ([c] : PyStr).length (c :: as) = as := rfl
      rw [hdrop, ih]
      show _ = List.splitOnP (· == c) (c :: as)
      rw [List.splitOnP_cons]
      simp only [beq_self_eq_true, if_true]
      rfl
    · have hp : pyStartsWith [c] (a :: as) = false := by
        simp only [pyStartsWith, Bool.and_eq_false_iff]
        left
        exact beq_eq_false_iff_ne.mpr h
      rw [pySplit_cons_neg hp, ih]
      show _ = List.splitOnP (· == c) (a :: as)
      rw [List.splitOnP_cons]
      have hba : (a == c) = false := beq_eq_false_iff_ne.mpr (fun hh => h hh.symm)
      rw [hba]
      simp only [Bool.false_eq_true, if_false]
      cases hsp : List.splitOn c as with
      | nil => exact absurd hsp (List.splitOnP_ne_nil _ as)
      | cons p ps =>
        rw [show List.splitOnP (· == c) as = List.splitOn c as from rfl, hsp]
        rfl

lemma splitOn_sep_not_mem (c : Char) : ∀ (s : PyStr), ∀ p ∈ List.splitOn c s, c ∉ p := by
  intro s
  induction s with
  | nil =>
    intro p hp
    have : p = [] := by simpa [List.splitOn] using hp
    simp [this]
  | cons a as ih =>
    intro p hp
    rw [show List.splitOn c (a :: as) = List.splitOnP (· == c) (a :: as) from rfl,
        List.splitOnP_cons] at hp
    by_cases h : a = c
    · rw [if_pos (by simp [h])] at hp
      rcases List.mem_cons.mp hp with h1 | h1
      · simp [h1]
      · exact ih p h1
    · rw [if_neg (by simp [h])] at hp
      cases hsp : List.splitOn c as with
      | nil => exact absurd hsp (List.splitOnP_ne_nil _ as)
      | cons q qs =>
        rw [show List.splitOnP (· == c) as = List.splitOn c as from rfl, hsp] at hp
        simp only [List.modifyHead] at hp
        rcases List.mem_cons.mp hp with h1 | h1
        · subst h1
          intro hc
          rcases List.mem_cons.mp hc with h2 | h2
          · exact h h2.symm
          · exact ih q (by rw [hsp]; exact List.mem_cons_self q qs) h2
        · exact ih p (by rw [hsp]; exact List.mem_cons_of_mem q h1)

lemma splitOn_of_not_mem {c : Char} {s : PyStr} (h : c ∉ s) : List.splitOn c s = [s] := by
  show List.splitOnP (· == c) s = [s]
  apply List.splitOnP_eq_single
  intro x hx
  simp only [beq_iff_eq]
  exact fun hxc => h (hxc ▸ hx)

lemma splitOn_get1_mem {c : Char} {s k : PyStr}
    (h : (List.splitOn c s).get? 1 = some k) : c ∈ s := by
  by_contra hc
  rw [splitOn_of_not_mem hc] at h
  simp at h

lemma splitOn_get1_ne {c : Char} {s k : PyStr}
    (h : (List.splitOn c s).get? 1 = some k) : k ≠ s := by
  intro hk
  have h1 : c ∉ k := splitOn_sep_not_mem c s k (List.get?_mem h)
  have h2 : c ∈ s := splitOn_get1_mem h
  rw [hk] at h1
  exact h1 h2

lemma hasInfix_singleton (c : Char) : ∀ s : PyStr, hasInfix [c] s = true ↔ c ∈ s := by
  intro s
  induction s with
  | nil => simp [hasInfix, List.isEmpty]
  | cons a as ih =>
    simp only [hasInfix, pyStartsWith, Bool.and_true, Bool.or_eq_true, ih,
      List.mem_cons, beq_iff_eq]

lemma upToFirstOcc_singleton (c : Char) :
    ∀ s : PyStr, upToFirstOcc [c] s = s.takeWhile (fun a => a != c) := by
  intro s
  induction s with
  | nil => rfl
  | cons a as ih =>
    by_cases h : c = a
    · subst h
      have hp : pyStartsWith [c] (c :: as) = true := by simp [pyStartsWith]
      simp [upToFirstOcc, findOcc_cons_pos hp, List.takeWhile]
    · have hp : pyStartsWith [c] (a :: as) = false := by
        simp only [pyStartsWith, Bool.and_eq_false_iff]
        left
        exact beq_eq_false_iff_ne.mpr h
      have hne : (a != c) = true := bne_iff_ne.mpr (fun hh => h hh.symm)
      cases hfo : findOcc [c] as with
      | none =>
        have h1 : upToFirstOcc [c] as = as := by simp [upToFirstOcc, hfo]
        rw [← h1, ih] at *
        simp [upToFirstOcc, findOcc_cons_neg hp, hfo, List.takeWhile, hne, ← ih,
          upToFirstOcc, h1]
      | some i =>
        have h2 : upToFirstOcc [c] (a :: as) = a :: as.take i := by
          simp [upToFirstOcc, findOcc_cons_neg hp, hfo, List.take_succ_cons]
        have h1 : upToFirstOcc [c] as = as.take i := by simp [upToFirstOcc, hfo]
        rw [h2]
        simp only [List.takeWhile, hne, if_true]
        rw [← ih, h1]

/-! ## Trace lemmas: the refresh pipeline never emits a commit event -/

lemma reupload_trace (w : World) (url : PyStr) :
    ∃ es, ((reupload_file w url).2).trace = w.trace ++ es ∧ Ev.commit ∉ es := by
  simp only [reupload_file]
  cases hh : w.http url with
  | netErr => exact ⟨[], by simp, by simp⟩
  | resp status body =>
    dsimp only
    by_cases hs : status ≠ 200
    · rw [if_pos hs]
      exact ⟨[], by simp, by simp⟩
    · rw [if_neg hs]
      by_cases hu : w.uploadFails
      · rw [if_pos hu]
        exact ⟨[], by simp, by simp⟩
      · rw [if_neg hu]
        by_cases hp : w.presignFails
        · rw [if_pos hp]
          refine ⟨[Ev.upload (uuidName w.nonce ++
            splitextExt (baseName ((pySplit (pys "?") url).headD [])))], by simp, by simp⟩
        · rw [if_neg hp]
          refine ⟨[Ev.upload (uuidName w.nonce ++
              splitextExt (baseName ((pySplit (pys "?") url).headD []))),
            Ev.presign (uuidName w.nonce ++
              splitextExt (baseName ((pySplit (pys "?") url).headD []))) EXPIRES],
            by simp, by simp⟩

lemma refresh_trace (w : World) (url : PyStr) :
    ∃ es, ((refresh_s3_link w url).2).trace = w.trace ++ es ∧ Ev.commit ∉ es := by
  simp only [refresh_s3_link]
  cases hx : extract_path_from_url url with
  | none => exact ⟨[], by simp, by simp⟩
  | some path =>
    dsimp only
    by_cases hp0 : path = []
    · rw [if_pos hp0]
      exact ⟨[], by simp, by simp⟩
    · rw [if_neg hp0]
      by_cases hmem : path ∈ w.store
      · rw [if_pos hmem]
        by_cases hpf : w.presignFails
        · rw [if_pos hpf]
          exact reupload_trace w url
        · rw [if_neg hpf]
          exact ⟨[Ev.presign path EXPIRES], by simp, by simp⟩
      · rw [if_neg hmem]
        exact reupload_trace w url

lemma delete_trace (w : World) (path : PyStr) :
    ∃ es, ((delete_s3_object w path).2).trace = w.trace ++ es ∧ Ev.commit ∉ es := by
  simp only [delete_s3_object]
  cases hk : (pySplit (pys "/") path).get? 1 with
  | none => exact ⟨[], by simp, by simp⟩
  | some k => exact ⟨[Ev.del k], by simp, by simp⟩

lemma update_field_trace (w : World) (url : PyStr) :
    ∃ es, ((update_field w url).2.2).trace = w.trace ++ es ∧ Ev.commit ∉ es := by
  simp only [update_field]
  obtain ⟨es1, h1, hc1⟩ := refresh_trace w url
  cases hr : refresh_s3_link w url with
  | mk res w' =>
    rw [hr] at h1
    cases res with
    | error e => exact ⟨es1, h1, hc1⟩
    | ok newUrl =>
      dsimp only
      by_cases heq : newUrl = url
      · rw [if_pos heq]
        exact ⟨es1, h1, hc1⟩
      · rw [if_neg heq]
        cases hx : extract_path_from_url url with
        | none => exact ⟨es1, h1, hc1⟩
        | some p =>
          dsimp only
          by_cases hp0 : p = []
          · rw [if_pos hp0]
            exact ⟨es1, h1, hc1⟩
          · rw [if_neg hp0]
            obtain ⟨es2, h2, hc2⟩ := delete_trace w' p
            refine ⟨es1 ++ es2, ?_, ?_⟩
            · rw [h2, h1, List.append_assoc]
            · simp only [List.mem_append]
              rintro (h | h)
              · exact hc1 h
              · exact hc2 h

lemma update_template_trace (w : World) (t : Template) :
    ∃ es, ((update_template_urls w t).2.2).trace = w.trace ++ es ∧ Ev.commit ∉ es := by
  simp only [update_template_urls]
  have step1 : ∀ (f : Option PyStr) (wIn : World),
      ∃ es, ((match f with
        | none => (f, false, wIn)
        | some u =>
            if u = [] then (f, false, wIn)
            else
              let r := update_field wIn u
              (some r.1, r.2.1, r.2.2) : Option PyStr × Bool × World)).2.2.trace =
        wIn.trace ++ es ∧ Ev.commit ∉ es := by
    intro f wIn
    cases f with
    | none => exact ⟨[], by simp, by simp⟩
    | some u =>
      dsimp only
      by_cases hu : u = []
      · rw [if_pos hu]
        exact ⟨[], by simp, by simp⟩
      · rw [if_neg hu]
        exact update_field_trace wIn u
  obtain ⟨es1, h1, hc1⟩ := step1 t.download_url w
  obtain ⟨es2, h2, hc2⟩ := step1 t.image_url (match t.download_url with
    | none => ((t.download_url : Option PyStr), false, w)
    | some u =>
        if u = [] then (t.download_url, false, w)
        else
          let r := update_field w u
          (some r.1, r.2.1, r.2.2)).2.2
  refine ⟨es1 ++ es2, ?_, ?_⟩
  · rw [h2, h1, List.append_assoc]
  · simp only [List.mem_append]
    rintro (h | h)
    · exact hc1 h
    · exact hc2 h

lemma process_all_trace (ts : List Template) :
    ∀ w : World, ∃ es, ((process_all w ts).2.2).trace = w.trace ++ es ∧
      Ev.commit ∉ es ∧ ∀ t ∈ ts, Ev.record t.id ∈ es := by
  induction ts with
  | nil => intro w; exact ⟨[], by simp [process_all], by simp, by simp⟩
  | cons t ts ih =>
    intro w
    obtain ⟨es1, h1, hc1⟩ := update_template_trace w t
    set w2 : World := { (update_template_urls w t).2.2 with
      trace := (update_template_urls w t).2.2.trace ++ [Ev.record t.id] } with hw2
    obtain ⟨es2, h2, hc2, hr2⟩ := ih w2
    refine ⟨es1 ++ [Ev.record t.id] ++ es2, ?_, ?_, ?_⟩
    · show ((process_all w2 ts).2.2).trace = _
      rw [h2]
      show ((update_template_urls w t).2.2.trace ++ [Ev.record t.id]) ++ es2 = _
      rw [h1]
      simp [List.append_assoc]
    · simp only [List.mem_append]
      rintro ((h | h) | h)
      · exact hc1 h
      · simp at h
      · exact hc2 h
    · intro u hu
      rcases List.mem_cons.mp hu with h | h
      · subst h
        simp
      · simp only [List.mem_append]
        exact Or.inr (hr2 u h)

/-! ## Scheduler helper lemmas -/

lemma keysOf_append {α : Type} (l1 l2 : List (String × α)) :
    keysOf (l1 ++ l2) = keysOf l1 ++ keysOf l2 := by
  simp [keysOf]

lemma keysOf_filter {α : Type} (l : List (String × α)) (id : String) :
    keysOf (l.filter (fun p => p.1 != id)) = (keysOf l).filter (fun x => x != id) := by
  induction l with
  | nil => rfl
  | cons p ps ih =>
    simp only [List.filter_cons]
    cases h : (p.1 != id) with
    | true => simp only [keysOf, List.map_cons, List.filter_cons, h, if_true]; simpa [keysOf] using ih
    | false => simp only [keysOf, List.map_cons, List.filter_cons, h, if_false]; simpa [keysOf] using ih

lemma pairing_step (s : Scheduler) (op : SchedOp)
    (h : keysOf s.crons = keysOf s.tasks) :
    keysOf (apply_op s op).crons = keysOf (apply_op s op).tasks := by
  cases op with
  | add t =>
    simp only [apply_op, add_task]
    by_cases hmem : t.jobId ∈ keysOf s.tasks
    · simp [hmem, h]
    · rw [if_neg hmem]
      show keysOf (s.crons ++ [(t.jobId, mk_cron_job t)]) =
        keysOf (s.tasks ++ [(t.jobId, t)])
      rw [keysOf_append, keysOf_append, h]
      rfl
  | remove id =>
    simp only [apply_op, remove_task]
    by_cases hmem : id ∈ keysOf s.tasks
    · have hcr : id ∈ keysOf s.crons := by rw [h]; exact hmem
      simp [hmem, hcr, keysOf_filter, h]
    · simp [hmem, h]

lemma pairing_fold : ∀ (ops : List SchedOp) (s : Scheduler),
    keysOf s.crons = keysOf s.tasks →
    keysOf (ops.foldl apply_op s).crons = keysOf (ops.foldl apply_op s).tasks := by
  intro ops
  induction ops with
  | nil => intro s h; exact h
  | cons op ops ih => intro s h; exact ih _ (pairing_step s op h)

/-! ## The claims -/

/-- C8: on every exit path of the re-upload operation — successful upload,
HTTP non-200 failure, mid-stream download failure, upload failure or
presign failure — the temporary file created at its start is gone from
disk when the operation returns. -/
theorem c8_temp_file_always_removed (w : World) (url : PyStr) :
    w.tempCtr ∉ ((reupload_file w url).2).temps := by
  simp only [reupload_file]
  simp [List.mem_filter]

/-- C3 (evaluation of the failing behavior): with a started sub-minute cron
and no runner loops, two coarse minute-boundary ticks spawn two
independent runner loops — not one — and invoking shutdown stops the cron
but leaves both runner loops alive. This contradicts the claim that the
coarse tick bootstraps the loop exactly once and that the loop stops on
shutdown, and it contradicts the source's own comments, which say the
wrapped function is used only for the first run. -/
theorem c3_tick_spawns_runner_each_time :
    (coarse_tick (coarse_tick { cronStarted := true, runners := 0 })).runners = 2 ∧
    (shutdown_sub (coarse_tick (coarse_tick
      { cronStarted := true, runners := 0 }))).runners = 2 ∧
    (shutdown_sub (coarse_tick (coarse_tick
      { cronStarted := true, runners := 0 }))).cronStarted = false := by
  exact ⟨rfl, rfl, rfl⟩

/-- C4: for 60 ≤ I < 3600 the computed dispatch schedule is the
every-⌊I/60⌋-minutes cron form (the every-minute form when the quotient is
1), firing exactly at minutes divisible by ⌊I/60⌋; for I ≥ 3600 it is the
every-⌊I/3600⌋-hours-at-minute-0 form; in particular I = 7200 yields the
every-2-hours-at-minute-0 schedule and I = 90 the every-minute form. -/
theorem c4_interval_to_schedule :
    (∀ I : Nat, 60 ≤ I → I < 3600 →
      cron_expr_of_interval I = (CoarseSched.everyNMinutes (I / 60)).render ∧
      (∀ h m : Nat, (CoarseSched.everyNMinutes (I / 60)).fires h m = true ↔
        m % (I / 60) = 0)) ∧
    (∀ I : Nat, 3600 ≤ I →
      cron_expr_of_interval I = (CoarseSched.everyNHoursAtZero (I / 3600)).render ∧
      (∀ h m : Nat, (CoarseSched.everyNHoursAtZero (I / 3600)).fires h m = true ↔
        (m = 0 ∧ h % (I / 3600) = 0))) ∧
    cron_expr_of_interval 7200 = "0 */2 * * *" ∧
    (∀ h m : Nat, (CoarseSched.everyNHoursAtZero 2).fires h m = true ↔
      (m = 0 ∧ h % 2 = 0)) ∧
    cron_expr_of_interval 90 = "* * * * *" := by
  refine ⟨?_, ?_, ?_, ?_, ?_⟩
  · intro I h60 h3600
    have hm : I / 60 < 60 := by
      rw [Nat.div_lt_iff_lt_mul (by norm_num : 0 < 60)]
      omega
    constructor
    · simp only [cron_expr_of_interval, CoarseSched.render, if_pos hm]
    · intro h m
      simp [CoarseSched.fires]
  · intro I h3600
    have hm : ¬(I / 60 < 60) := by
      rw [Nat.div_lt_iff_lt_mul (by norm_num : 0 < 60)]
      omega
    have hdd : I / 60 / 60 = I / 3600 := by
      rw [Nat.div_div_eq_div_mul]
    constructor
    · simp only [cron_expr_of_interval, CoarseSched.render, if_neg hm, hdd]
    · intro h m
      simp [CoarseSched.fires]
  · rfl
  · intro h m
    simp [CoarseSched.fires]
  · rfl

/-- C4 witness: the theorem evaluated at the concrete interval 120 s. -/
theorem c4_interval_to_schedule_witness :
    cron_expr_of_interval 120 = (CoarseSched.everyNMinutes (120 / 60)).render ∧
    (∀ h m : Nat, (CoarseSched.everyNMinutes (120 / 60)).fires h m = true ↔
      m % (120 / 60) = 0) :=
  c4_interval_to_schedule.1 120 (by norm_num) (by norm_num)

/-- C6: registering a task whose identifier is already present returns the
duplicate signal `false` and leaves the registry and dispatch-handle map
completely unchanged; registering a fresh identifier returns `true` and
both maps grow by exactly that task's entry. -/
theorem c6_add_task_duplicate_and_fresh :
    (∀ (s : Scheduler) (t : STask), t.jobId ∈ keysOf s.tasks →
      add_task s t = (s, false)) ∧
    (∀ (s : Scheduler) (t : STask), t.jobId ∉ keysOf s.tasks →
      (add_task s t).2 = true ∧
      (add_task s t).1.tasks = s.tasks ++ [(t.jobId, t)] ∧
      (add_task s t).1.crons = s.crons ++ [(t.jobId, mk_cron_job t)]) := by
  constructor
  · intro s t h
    simp [add_task, h]
  · intro s t h
    simp [add_task, h]

/-- C6 witness: re-registering `tA` on `s0` fails without mutation, while
registering the fresh `tB` succeeds and extends the registry by one. -/
theorem c6_add_task_witness :
    add_task s0 tA = (s0, false) ∧
    ((add_task s0 tB).2 = true ∧
      (add_task s0 tB).1.tasks = s0.tasks ++ [(tB.jobId, tB)] ∧
      (add_task s0 tB).1.crons = s0.crons ++ [(tB.jobId, mk_cron_job tB)]) :=
  ⟨c6_add_task_duplicate_and_fresh.1 s0 tA (by decide),
   c6_add_task_duplicate_and_fresh.2 s0 tB (by decide)⟩

/-- C9: under any sequence of add/remove operations from a fresh scheduler
the dispatch-handle map and the task registry hold exactly the same
identifiers; shutdown empties only the dispatch-handle map and keeps the
registry; and removing a registered task still succeeds after shutdown. -/
theorem c9_crons_tasks_pairing :
    (∀ ops : List SchedOp,
      keysOf (run_ops ops).crons = keysOf (run_ops ops).tasks) ∧
    (∀ s : Scheduler, (shutdown_sched s).tasks = s.tasks ∧
      (shutdown_sched s).crons = []) ∧
    (∀ (s : Scheduler) (id : String), id ∈ keysOf s.tasks →
      (remove_task (shutdown_sched s) id).2 = true) := by
  refine ⟨?_, ?_, ?_⟩
  · intro ops
    exact pairing_fold ops Scheduler.init rfl
  · intro s
    exact ⟨rfl, rfl⟩
  · intro s id h
    simp [remove_task, shutdown_sched, h]

/-- C9 witness: removing `tA` from `s0` after shutdown still succeeds. -/
theorem c9_crons_tasks_pairing_witness :
    (remove_task (shutdown_sched s0) "task_a").2 = true :=
  c9_crons_tasks_pairing.2.2 s0 "task_a" (by decide)

/-- C10: the deletion operation passes `path.split("/")[1]` — the second
slash-separated segment, never the full path the existence probe used — as
the object key, and on a path with no `'/'` the indexing error is caught
and the operation returns `false` without raising. -/
theorem c10_delete_uses_second_segment :
    (∀ (w : World) (path k : PyStr), (List.splitOn '/' path).get? 1 = some k →
      delete_s3_object w path =
        (true, { w with store := setRemove k w.store,
                        trace := w.trace ++ [Ev.del k] }) ∧
      k ≠ path) ∧
    (∀ (w : World) (path : PyStr), '/' ∉ path →
      delete_s3_object w path = (false, w)) := by
  constructor
  · intro w path k hk
    refine ⟨?_, splitOn_get1_ne hk⟩
    simp only [delete_s3_object]
    rw [show (pys "/") = ['/'] from rfl, pySplit_singleton, hk]
  · intro w path h
    simp only [delete_s3_object]
    rw [show (pys "/") = ['/'] from rfl, pySplit_singleton, splitOn_of_not_mem h]
    rfl

/-- C10 witness: the theorem evaluated on the path `"bucket/a/b"` (key
`"a"` is deleted, not the probed path) and on the slash-free path
`"nos"`. -/
theorem c10_delete_uses_second_segment_witness :
    (delete_s3_object w0 (pys "bucket/a/b") =
      (true, { w0 with store := setRemove (pys "a") w0.store,
                       trace := w0.trace ++ [Ev.del (pys "a")] }) ∧
      (pys "a") ≠ (pys "bucket/a/b")) ∧
    delete_s3_object w0 (pys "nos") = (false, w0) :=
  ⟨c10_delete_uses_second_segment.1 w0 (pys "bucket/a/b") (pys "a") (by decide),
   c10_delete_uses_second_segment.2 w0 (pys "nos") (by decide)⟩

/-- C2: when the unit-of-work opens successfully and all records are
processed (per-record failures being absorbed at the record boundary), a
run of the link-refresh task commits exactly once, and that single commit
is the last observable event — after every queried record has been
processed, never per-record. -/
theorem c2_commit_exactly_once (w : World) (db : List Template)
    (hw : w.trace = []) :
    ∃ ts n w', execute_task w db false = Except.ok (ts, n, w') ∧
      w'.trace.count Ev.commit = 1 ∧
      w'.trace.getLast? = some Ev.commit ∧
      ∀ t ∈ query_templates db, Ev.record t.id ∈ w'.trace := by
  obtain ⟨es, hes, hc, hr⟩ := process_all_trace (query_templates db) w
  refine ⟨(process_all w (query_templates db)).1,
    (process_all w (query_templates db)).2.1,
    { (process_all w (query_templates db)).2.2 with
      trace := (process_all w (query_templates db)).2.2.trace ++ [Ev.commit] },
    rfl, ?_, ?_, ?_⟩
  · show ((process_all w (query_templates db)).2.2.trace ++ [Ev.commit]).count Ev.commit = 1
    rw [hes, hw]
    simp [List.count_append, List.count_eq_zero.mpr hc]
  · show ((process_all w (query_templates db)).2.2.trace ++ [Ev.commit]).getLast? =
      some Ev.commit
    exact List.getLast?_concat _
  · intro t ht
    show Ev.record t.id ∈ (process_all w (query_templates db)).2.2.trace ++ [Ev.commit]
    rw [hes, hw]
    simp only [List.nil_append, List.mem_append]
    exact Or.inl (hr t ht)

/-- C2 witness: the theorem evaluated on the empty catalog and a fresh
world. -/
theorem c2_commit_exactly_once_witness :
    ∃ ts n w', execute_task w0 [] false = Except.ok (ts, n, w') ∧
      w'.trace.count Ev.commit = 1 ∧
      w'.trace.getLast? = some Ev.commit ∧
      ∀ t ∈ query_templates [], Ev.record t.id ∈ w'.trace :=
  c2_commit_exactly_once w0 [] rfl

/-- C5: no exception propagates out of the task's execute — it always
returns normally because of the top-level handler — and when the
unit-of-work open fails the run terminates with no commit and no
observable effect. -/
theorem c5_execute_never_raises (w : World) (db : List Template)
    (openFails : Bool) :
    (∃ r, execute_task w db openFails = Except.ok r) ∧
    (openFails = true → execute_task w db openFails = Except.ok (db, 0, w)) := by
  cases openFails with
  | true => exact ⟨⟨(db, 0, w), rfl⟩, fun _ => rfl⟩
  | false =>
    refine ⟨⟨_, rfl⟩, ?_⟩
    intro h
    simp at h

/-- C5 witness: the theorem evaluated with a failing unit-of-work open. -/
theorem c5_execute_never_raises_witness :
    (∃ r, execute_task w0 [] true = Except.ok r) ∧
    (true = true → execute_task w0 [] true = Except.ok ([], 0, w0)) :=
  c5_execute_never_raises w0 [] true

/-- C7 counterexample: the URL `"x.s3.amazonaws.com"` contains the marker
`'s3.amazonaws.com'`, yet extraction yields `None` rather than everything
after the marker: the code splits on `'s3.amazonaws.com/'`, which does not
occur here, and the resulting `IndexError` is caught. This refutes the
claim's marker branch as stated. -/
theorem c7_counterexample :
    hasInfix marker (pys "x.s3.amazonaws.com") = true ∧
    extract_path_from_url (pys "x.s3.amazonaws.com") = none ∧
    extract_path_from_url (pys "x.s3.amazonaws.com") ≠
      some (afterFirstOcc marker (pys "x.s3.amazonaws.com")) := by
  refine ⟨by decide, by decide, by decide⟩

/-- C7 (amended): extraction returns (a) the text after the first
occurrence of `'s3.amazonaws.com/'` — the marker followed by a slash — up
to its next occurrence, whenever that delimiter occurs; (b) `None` when
the bare marker occurs but is never followed by `'/'`; (c) for URLs
without the marker that split on `'/'` into at least 4 segments, the
segments from the 4th onward joined by `'/'` with any trailing query
string stripped; and (d) `None` otherwise. -/
theorem c7_amended_extraction :
    (∀ url : PyStr, hasInfix marker url = true → hasInfix markerSlash url = true →
      extract_path_from_url url =
        some (upToFirstOcc markerSlash (afterFirstOcc markerSlash url))) ∧
    (∀ url : PyStr, hasInfix marker url = true → hasInfix markerSlash url = false →
      extract_path_from_url url = none) ∧
    (∀ url : PyStr, hasInfix marker url = false →
      (List.splitOn '/' url).length ≥ 4 →
      extract_path_from_url url =
        some ((pyJoin (pys "/") ((List.splitOn '/' url).drop 3)).takeWhile
          (fun c => c != '?'))) ∧
    (∀ url : PyStr, hasInfix marker url = false →
      (List.splitOn '/' url).length < 4 →
      extract_path_from_url url = none) := by
  have hms : markerSlash ≠ [] := by decide
  refine ⟨?_, ?_, ?_, ?_⟩
  · intro url h1 h2
    simp only [extract_path_from_url, h1, if_true]
    rw [pySplit_get1 hms url, if_pos h2]
  · intro url h1 h2
    simp only [extract_path_from_url, h1, if_true]
    rw [pySplit_get1 hms url]
    simp [h2]
  · intro url h1 h4
    simp only [extract_path_from_url, h1, Bool.false_eq_true, if_false]
    rw [show (pys "/") = ['/'] from rfl, pySplit_singleton, if_pos h4]
    have hq : ∀ X : PyStr, (pySplit (pys "?") X).headD [] =
        X.takeWhile (fun c => c != '?') := by
      intro X
      rw [show (pys "?") = ['?'] from rfl, pySplit_headD (by decide) X,
        upToFirstOcc_singleton]
    rw [hq]
  · intro url h1 h4
    simp only [extract_path_from_url, h1, Bool.false_eq_true, if_false]
    rw [show (pys "/") = ['/'] from rfl, pySplit_singleton, if_neg (by omega)]

/-- C7 witness: the amended theorem evaluated on one URL per branch. -/
theorem c7_amended_extraction_witness :
    extract_path_from_url (pys "https://b.s3.amazonaws.com/f/doc.pdf") =
      some (upToFirstOcc markerSlash
        (afterFirstOcc markerSlash (pys "https://b.s3.amazonaws.com/f/doc.pdf"))) ∧
    extract_path_from_url (pys "x.s3.amazonaws.comQ/a") = none ∧
    extract_path_from_url (pys "http://h/bucket/a/b") =
      some ((pyJoin (pys "/")
        ((List.splitOn '/' (pys "http://h/bucket/a/b")).drop 3)).takeWhile
          (fun c => c != '?')) ∧
    extract_path_from_url (pys "a/b") = none :=
  ⟨c7_amended_extraction.1 _ (by decide) (by decide),
   c7_amended_extraction.2.1 _ (by decide) (by decide),
   c7_amended_extraction.2.2.1 _ (by decide) (by decide),
   c7_amended_extraction.2.2.2 _ (by decide) (by decide)⟩

/-- C1 counterexample: a record URL whose extracted path `"bucket/a/b"`
exists in the store is refreshed (the field is updated), yet the old key
that was probed still exists in the store afterwards — the deletion
targeted `"a"`, the second slash-separated segment, not the probed key —
refuting the claim as stated. -/
theorem c1_counterexample :
    extract_path_from_url (pys "http://h/bucket/a/b") = some (pys "bucket/a/b") ∧
    pys "bucket/a/b" ∈ w0.store ∧
    (update_field w0 (pys "http://h/bucket/a/b")).2.1 = true ∧
    pys "bucket/a/b" ∈ (update_field w0 (pys "http://h/bucket/a/b")).2.2.store := by
  refine ⟨by decide, by decide, by decide, by decide⟩

/-- C1 (amended): for every field URL whose extracted path exists in the
store, one refresh replaces the field with a new presigned URL issued with
`ExpiresIn = 604800` seconds (exactly 7 days), and the recorded old path
is then passed to the deletion operation — which removes the key equal to
the path's second slash-separated segment (doing nothing when the path has
no `'/'`); the probed full-path key itself remains in the store. -/
theorem c1_amended_refresh (w : World) (url path : PyStr)
    (hx : extract_path_from_url url = some path)
    (hne : path ≠ [])
    (hmem : path ∈ w.store)
    (hpf : w.presignFails = false)
    (hfresh : presign_url path EXPIRES w.nonce ≠ url) :
    (update_field w url).1 = presign_url path EXPIRES w.nonce ∧
    (update_field w url).2.1 = true ∧
    EXPIRES = 604800 ∧
    Ev.presign path EXPIRES ∈ (update_field w url).2.2.trace ∧
    path ∈ (update_field w url).2.2.store ∧
    (update_field w url).2.2.store =
      (match (List.splitOn '/' path).get? 1 with
       | some k => setRemove k w.store
       | none => w.store) := by
  have hrefresh : refresh_s3_link w url =
      (Except.ok (presign_url path EXPIRES w.nonce),
       { w with nonce := w.nonce + 1,
                trace := w.trace ++ [Ev.presign path EXPIRES] }) := by
    simp only [refresh_s3_link, hx]
    rw [if_neg hne, if_pos hmem, if_neg (by simp [hpf])]
  simp only [update_field, hrefresh, hx]
  rw [if_neg hfresh, if_neg hne]
  cases hk : (List.splitOn '/' path).get? 1 with
  | some k =>
    have hd : delete_s3_object
        { w with nonce := w.nonce + 1,
                 trace := w.trace ++ [Ev.presign path EXPIRES] } path =
        (true, { w with nonce := w.nonce + 1,
                        store := setRemove k w.store,
                        trace := (w.trace ++ [Ev.presign path EXPIRES]) ++ [Ev.del k] }) := by
      simp only [delete_s3_object]
      rw [show (pys "/") = ['/'] from rfl, pySplit_singleton, hk]
    rw [hd]
    have hkp : path ≠ k := fun hh => (splitOn_get1_ne hk) hh.symm
    refine ⟨rfl, rfl, by decide, by simp, ?_, rfl⟩
    show path ∈ (w.store.filter (fun x => x != k))
    rw [List.mem_filter]
    exact ⟨hmem, bne_iff_ne.mpr hkp⟩
  | none =>
    have hd : delete_s3_object
        { w with nonce := w.nonce + 1,
                 trace := w.trace ++ [Ev.presign path EXPIRES] } path =
        (false, { w with nonce := w.nonce + 1,
                         trace := w.trace ++ [Ev.presign path EXPIRES] }) := by
      simp only [delete_s3_object]
      rw [show (pys "/") = ['/'] from rfl, pySplit_singleton, hk]
    rw [hd]
    exact ⟨rfl, rfl, by decide, by simp, hmem, rfl⟩

/-- C1 witness: the amended theorem evaluated on the world `w0` holding the
key `"bucket/a/b"` and the URL `"http://h/bucket/a/b"`. -/
theorem c1_amended_refresh_witness :
    (update_field w0 (pys "http://h/bucket/a/b")).1 =
      presign_url (pys "bucket/a/b") EXPIRES w0.nonce ∧
    (update_field w0 (pys "http://h/bucket/a/b")).2.1 = true ∧
    EXPIRES = 604800 ∧
    Ev.presign (pys "bucket/a/b") EXPIRES ∈
      (update_field w0 (pys "http://h/bucket/a/b")).2.2.trace ∧
    pys "bucket/a/b" ∈ (update_field w0 (pys "http://h/bucket/a/b")).2.2.store ∧
    (update_field w0 (pys "http://h/bucket/a/b")).2.2.store =
      (match (List.splitOn '/' (pys "bucket/a/b")).get? 1 with
       | some k => setRemove k w0.store
       | none => w0.store) :=
  c1_amended_refresh w0 (pys "http://h/bucket/a/b") (pys "bucket/a/b")
    (by decide) (by decide) (by decide) rfl (by decide)

end SchedApp
